import Mathlib

/-!
Verification of the brand-matching core of `brand_match_streamlit/app.py`.

Strings are embedded as `List Char`.  Python's `re` operations used by
`clean_text` are embedded as total recursive functions on character lists;
character classes (`\w`, `\s`) are taken at their ASCII meaning.
-/

set_option maxRecDepth 10000

namespace BrandMatch

/-- Python regex `\w` (ASCII): letters, digits, underscore. -/
def isWordChar (c : Char) : Bool := c.isAlphanum || c = '_'

/-- Python regex `\s` (ASCII): space, tab, newline, carriage return, form feed, vertical tab. -/
def isSpaceChar (c : Char) : Bool :=
  c = ' ' || c = Char.ofNat 9 || c = Char.ofNat 10 || c = Char.ofNat 13 ||
  c = Char.ofNat 12 || c = Char.ofNat 11

/-- `str.lower` on one character (ASCII range). -/
def lowerChar (c : Char) : Char :=
  if 65 ≤ c.toNat ∧ c.toNat ≤ 90 then Char.ofNat (c.toNat + 32) else c

/-- `text.lower()` (app.py line 35). -/
def pyLower (l : List Char) : List Char := l.map lowerChar

/-- Worker for `removeParens`.  `buf` (reversed) holds the characters seen since
the currently pending `(`; when a `)` arrives the whole buffered segment is the
regex match and is discarded, and if the input ends first the buffered segment
had no closing parenthesis and is kept verbatim. -/
def removeParensGo : Option (List Char) → List Char → List Char
  | none, [] => []
  | some buf, [] => buf.reverse
  | none, c :: rest =>
    if c = '(' then removeParensGo (some [c]) rest
    else c :: removeParensGo none rest
  | some buf, c :: rest =>
    if c = ')' then removeParensGo none rest
    else removeParensGo (some (c :: buf)) rest

/-- `re.sub(r'\([^)]*\)', '', text)` (app.py line 36): scanning left to right,
each `(` followed (anywhere later) by a `)` is deleted together with everything
up to the first such `)`; a `(` with no later `)` stays. -/
def removeParens (l : List Char) : List Char := removeParensGo none l

/-- The four apostrophe-like characters of `re.sub(r"[’'‘`]", '', text)`
(app.py line 37), by code point: U+2019, U+0027, U+2018, U+0060. -/
def aposChars : List Char := [Char.ofNat 0x2019, Char.ofNat 39, Char.ofNat 0x2018, Char.ofNat 96]

/-- `re.sub(r"[’'‘`]", '', text)` (app.py line 37). -/
def removeApos (l : List Char) : List Char := l.filter (fun c => ¬ aposChars.contains c)

/-- The legal-entity tokens of app.py line 38. -/
def legalTokens : List (List Char) :=
  ["inc", "incorporated", "ltd", "llc", "corp", "co", "company"].map String.toList

/-- Emit a completed word run unless it is one of the legal-entity tokens. -/
def flushRun (run : List Char) : List Char :=
  if legalTokens.contains run then [] else run

/-- Worker for `removeLegal`: `cur` is the current word run, reversed. -/
def removeLegalGo : List Char → List Char → List Char
  | cur, [] => flushRun cur.reverse
  | cur, c :: rest =>
    if isWordChar c then removeLegalGo (c :: cur) rest
    else flushRun cur.reverse ++ c :: removeLegalGo [] rest

/-- `re.sub(r'\b(inc|incorporated|ltd|llc|corp|co|company)\b', '', text)`
(app.py line 38).  Because `\b` marks exactly the ends of maximal `\w`-runs,
this deletes each maximal word run equal to one of the legal tokens. -/
def removeLegal (l : List Char) : List Char := removeLegalGo [] l

/-- `re.sub(r'[^\w\s]', ' ', text)` (app.py line 39). -/
def punctToSpace (l : List Char) : List Char :=
  l.map (fun c => if isWordChar c || isSpaceChar c then c else ' ')

/-- Worker for `collapseWs`; the flag records whether we are inside a
whitespace run that has already emitted its single `' '`. -/
def collapseWsGo : Bool → List Char → List Char
  | _, [] => []
  | inRun, c :: rest =>
    if isSpaceChar c then
      if inRun then collapseWsGo true rest else ' ' :: collapseWsGo true rest
    else c :: collapseWsGo false rest

/-- `re.sub(r'\s+', ' ', text)` (app.py line 40): every maximal whitespace run
becomes a single space. -/
def collapseWs (l : List Char) : List Char := collapseWsGo false l

/-- Drop trailing whitespace characters. -/
def dropTrailingWs : List Char → List Char
  | [] => []
  | c :: rest =>
    if dropTrailingWs rest = [] && isSpaceChar c then []
    else c :: dropTrailingWs rest

/-- `text.strip()` (app.py line 41). -/
def stripWs (l : List Char) : List Char := dropTrailingWs (l.dropWhile isSpaceChar)

/-- `clean_text` (app.py lines 33-41): the six normalization steps in order. -/
def clean_text (l : List Char) : List Char :=
  stripWs (collapseWs (punctToSpace (removeLegal (removeApos (removeParens (pyLower l))))))

/-- Spec §8 test vector for the normalizer. -/
theorem clean_text_vector_acme : clean_text ("Acme, Inc. (USA)".toList) = "acme".toList := by
  decide

/-- Spec §8 test vector: apostrophes and the legal suffix `co` are removed. -/
theorem clean_text_vector_obrien :
    clean_text ("O'Brien's Soda Co.".toList) = "obriens soda".toList := by
  decide

/-! ## Tokenization into maximal runs (shared by the scorer and the proofs) -/

/-- Worker: maximal runs of characters satisfying `p`; `cur` is the current
run, reversed. -/
def runsGo (p : Char → Bool) : List Char → List Char → List (List Char)
  | cur, [] => if cur = [] then [] else [cur.reverse]
  | cur, c :: rest =>
    if p c then runsGo p (c :: cur) rest
    else (if cur = [] then [] else [cur.reverse]) ++ runsGo p [] rest

/-- The maximal runs of characters satisfying `p` in a string. -/
def runsBy (p : Char → Bool) (l : List Char) : List (List Char) := runsGo p [] l

/-- Python `str.split()`: maximal non-whitespace runs. -/
def wsSplit (l : List Char) : List (List Char) := runsBy (fun c => !(isSpaceChar c)) l

/-- Number of whitespace-delimited tokens of a string. -/
def numToks (l : List Char) : Nat := (wsSplit l).length

/-! ## Fuzzy scorer, modelled from spec §4.4 (`rapidfuzz` is not in `src/`) -/

/-- Fuel-indexed longest common subsequence length. -/
def lcsF : Nat → List Char → List Char → Nat
  | 0, _, _ => 0
  | _ + 1, [], _ => 0
  | _ + 1, _ :: _, [] => 0
  | fuel + 1, a :: as, b :: bs =>
    if a = b then lcsF fuel as bs + 1
    else max (lcsF fuel (a :: as) bs) (lcsF fuel as (b :: bs))

/-- Modelled from the spec: the "matching character count" of §4.4 step 4,
a longest-common-subsequence alignment of the two strings. -/
def lcs (a b : List Char) : Nat := lcsF (a.length + b.length) a b

/-- Modelled from the spec: the plain similarity ratio of §4.4 step 4,
`2 * matching_character_count / (len(s1) + len(s2))` scaled to an integer in
`[0,100]` (rounded to nearest); two empty strings rate 100. -/
def ratioScore (a b : List Char) : Nat :=
  if a.length + b.length = 0 then 100
  else (400 * lcs a b + (a.length + b.length)) / (2 * (a.length + b.length))

/-- Alphabetical (code-point lexicographic) order on token strings. -/
def lexLeChars : List Char → List Char → Bool
  | [], _ => true
  | _ :: _, [] => false
  | c :: cs, d :: ds =>
    if c.toNat < d.toNat then true
    else if d.toNat < c.toNat then false
    else lexLeChars cs ds

/-- Insertion step of the alphabetical sort. -/
def insSorted (x : List Char) : List (List Char) → List (List Char)
  | [] => [x]
  | y :: rest => if lexLeChars x y then x :: y :: rest else y :: insSorted x rest

/-- Alphabetical sort of a token list (spec §4.4 step 3). -/
def sortLex : List (List Char) → List (List Char)
  | [] => []
  | x :: rest => insSorted x (sortLex rest)

/-- Remove duplicate tokens (spec §4.4 step 1: sets of unique words). -/
def uniqToks : List (List Char) → List (List Char)
  | [] => []
  | t :: rest => if rest.contains t then uniqToks rest else t :: uniqToks rest

/-- Join tokens with single spaces. -/
def joinToks : List (List Char) → List Char
  | [] => []
  | [t] => t
  | t :: rest => t ++ ' ' :: joinToks rest

/-- Join the intersection string with a difference string, stripping the
separator when either side is empty (spec §4.4 step 3). -/
def combineJ (a b : List Char) : List Char := stripWs (a ++ ' ' :: b)

/-- Modelled from the spec: `rapidfuzz.fuzz.token_set_ratio` as described in
§4.4: unique whitespace tokens of both sides, intersection and the two
differences, three alphabetically sorted joined strings, and the maximum of
the three pairwise plain ratios. -/
def tokenSetScore (a b : List Char) : Nat :=
  let ta := sortLex (uniqToks (wsSplit a))
  let tb := sortLex (uniqToks (wsSplit b))
  let sect := ta.filter (fun t => tb.contains t)
  let da := ta.filter (fun t => !(tb.contains t))
  let db := tb.filter (fun t => !(ta.contains t))
  let s0 := joinToks sect
  let s1 := combineJ s0 (joinToks da)
  let s2 := combineJ s0 (joinToks db)
  max (ratioScore s0 s1) (max (ratioScore s0 s2) (ratioScore s1 s2))

/-! ## Candidate extraction, modelled from spec §4.4's contract for
`rapidfuzz.process.extract` (not in `src/`): all choices scored, sorted by
descending score with ties in stable input order, truncated to `topN`. -/

/-- One scored vocabulary candidate: the normalized choice string, its score
against the query, and its position in the vocabulary. -/
structure Scored where
  choice : List Char
  score : Nat
  idx : Nat
deriving DecidableEq, Repr

/-- Score every choice against the query, indexing from `i`. -/
def scoreAllGo (q : List Char) : List (List Char) → Nat → List Scored
  | [], _ => []
  | c :: rest, i => ⟨c, tokenSetScore q c, i⟩ :: scoreAllGo q rest (i + 1)

/-- Score every choice against the query. -/
def scoreAll (q : List Char) (choices : List (List Char)) : List Scored :=
  scoreAllGo q choices 0

/-- Stable descending insertion: an element moves ahead only of strictly
lower scores, so earlier input stays first on ties. -/
def insertDesc (x : Scored) : List Scored → List Scored
  | [] => [x]
  | y :: rest => if y.score ≤ x.score then x :: y :: rest else y :: insertDesc x rest

/-- Stable sort by descending score. -/
def sortDesc : List Scored → List Scored
  | [] => []
  | x :: rest => insertDesc x (sortDesc rest)

/-- Modelled from the spec: `process.extract(query, choices, scorer, limit)`
(app.py lines 128-133): the `limit` best-scoring choices, descending, ties in
stable input order. -/
def extract (q : List Char) (choices : List (List Char)) (limit : Nat) : List Scored :=
  (sortDesc (scoreAll q choices)).take limit

/-! ## Brand vocabulary (app.py lines 103-106).  A brand row is `none` for a
missing (NaN) cell and `some s` for text `s`. -/

/-- `brand_df.dropna(subset=[brand_text_col])` (app.py line 104). -/
def workBrands (rows : List (Option (List Char))) : List (List Char) := rows.filterMap id

/-- `cleaned_brands = [clean_text(b) for b in work_brands[...]]` (line 105). -/
def cleanedBrands (rows : List (Option (List Char))) : List (List Char) :=
  (workBrands rows).map clean_text

/-- The `(cleaned, original)` pairs zipped at app.py line 106. -/
def brandPairs (rows : List (Option (List Char))) : List (List Char × List Char) :=
  (workBrands rows).map (fun b => (clean_text b, b))

/-- `cleaned_to_original = dict(zip(cleaned_brands, originals))` (line 106):
a Python dict built from pairs keeps, for each key, the value of the LAST
pair with that key. -/
def originalFor (rows : List (Option (List Char))) (k : List Char) : Option (List Char) :=
  ((brandPairs rows).reverse.find? (fun p => p.1 = k)).map (fun p => p.2)

/-! ## Candidate query builder (app.py lines 116-126) -/

/-- The literal substring `" by "`. -/
def byPat : List Char := " by ".toList

/-- Does `l` start with `pat`? -/
def leadsWith : List Char → List Char → Bool
  | [], _ => true
  | _ :: _, [] => false
  | p :: ps, c :: cs => p = c && leadsWith ps cs

/-- Python's `pat in s`: does `pat` occur as a contiguous substring? -/
def containsPat (pat : List Char) : List Char → Bool
  | [] => leadsWith pat []
  | c :: rest => leadsWith pat (c :: rest) || containsPat pat rest

/-- `s.split(pat, 1)[1]`: the suffix after the first occurrence of `pat`. -/
def splitFirst (pat : List Char) : List Char → Option (List Char)
  | [] => if leadsWith pat [] then some [] else none
  | c :: rest =>
    if leadsWith pat (c :: rest) then some ((c :: rest).drop pat.length)
    else splitFirst pat rest

/-- App.py lines 116-126: lower-case the description; if it contains `" by "`,
the query is `clean_text` of the suffix after the first occurrence (flag
`true`), else `clean_text` of the whole description (flag `false`). -/
def buildQuery (desc : List Char) : List Char × Bool :=
  let dl := pyLower desc
  if containsPat byPat dl then (clean_text ((splitFirst byPat dl).getD dl), true)
  else (clean_text desc, false)

/-! ## Per-description ranking, filtering and retry (app.py lines 115-147) -/

/-- `process.extract` over the cleaned vocabulary (app.py lines 128-133). -/
def extractScored (rows : List (Option (List Char))) (q : List Char) (topN : Nat) :
    List Scored :=
  extract q (cleanedBrands rows) topN

/-- Threshold filter over the extracted candidates (app.py line 136). -/
def filteredScored (rows : List (Option (List Char))) (q : List Char)
    (threshold topN : Nat) : List Scored :=
  (extractScored rows q topN).filter (fun r => threshold ≤ r.score)

/-- `filtered = [(cleaned_to_original[m[0]], m[1]) for m in results if ...]`
(app.py line 136).  The dict key is always present, so `getD` never falls
back to its default. -/
def filteredRow (rows : List (Option (List Char))) (q : List Char)
    (threshold topN : Nat) : List (List Char × Nat) :=
  (filteredScored rows q threshold topN).map
    (fun r => ((originalFor rows r.choice).getD r.choice, r.score))

/-- One description through the orchestrator (app.py lines 115-147): build the
query with the `" by "` heuristic, rank and filter, and if the heuristic was
used and the filtered list is empty, retry once with the full description. -/
def matchRow (rows : List (Option (List Char))) (threshold topN : Nat)
    (desc : List Char) : List (List Char × Nat) :=
  let q := buildQuery desc
  let f1 := filteredRow rows q.1 threshold topN
  if f1 = [] && q.2 then filteredRow rows (clean_text desc) threshold topN else f1

/-- The whole matching loop (app.py lines 108-150): every description row is
processed with the caller-supplied threshold and topN, unconditionally. -/
def runMatching (rows : List (Option (List Char))) (descs : List (List Char))
    (threshold topN : Nat) : List (List (List Char × Nat)) :=
  descs.map (matchRow rows threshold topN)

/-! ## Refinement filter, modelled from spec §4.6 (not present in `src/`) -/

/-- The three-way outcome of the refinement stage (spec §3). -/
inductive Classification where
  | ConfidentMatches : List (List Char) → Classification
  | AmbiguousSingleWord : Classification
  | NoMatch : Classification
deriving DecidableEq, Repr

/-- Modelled from the spec: the per-brand loop of §4.6 steps 2-4.  Returns the
accepted multi-word brands (original order) and whether a single-word
candidate was seen. -/
def classifyGo (nd : List Char) : List (List Char) → List (List Char) × Bool
  | [] => ([], false)
  | b :: rest =>
    let nb := clean_text b
    let r := classifyGo nd rest
    if numToks nb = 1 then (r.1, true)
    else if 2 ≤ numToks nb && containsPat nb nd then (b :: r.1, r.2)
    else r

/-- Modelled from the spec: `classify(desc, matchedBrandNames)` of §4.6.
Empty matched list → `NoMatch`; multi-word normalized brands contained in the
normalized description are accepted; non-empty accepted list →
`ConfidentMatches`; else a seen single-word candidate → `AmbiguousSingleWord`;
else `NoMatch`. -/
def classify (desc : List Char) (matched : List (List Char)) : Classification :=
  if matched = [] then Classification.NoMatch
  else
    let r := classifyGo (clean_text desc) matched
    if r.1 = [] then
      if r.2 then Classification.AmbiguousSingleWord else Classification.NoMatch
    else Classification.ConfidentMatches r.1

/-! ## Score bounds -/

theorem lcsF_le_left (fuel : Nat) : ∀ a b : List Char, lcsF fuel a b ≤ a.length := by
  induction fuel with
  | zero => intro a b; simp [lcsF]
  | succ n ih =>
    intro a b
    match a, b with
    | [], _ => simp [lcsF]
    | _ :: _, [] => simp [lcsF]
    | c :: cs, d :: ds =>
      simp only [lcsF, List.length_cons]
      split
      · exact Nat.succ_le_succ (ih cs ds)
      · exact max_le (ih (c :: cs) ds) (Nat.le_succ_of_le (ih cs (d :: ds)))

theorem lcsF_le_right (fuel : Nat) : ∀ a b : List Char, lcsF fuel a b ≤ b.length := by
  induction fuel with
  | zero => intro a b; simp [lcsF]
  | succ n ih =>
    intro a b
    match a, b with
    | [], _ => simp [lcsF]
    | _ :: _, [] => simp [lcsF]
    | c :: cs, d :: ds =>
      simp only [lcsF, List.length_cons]
      split
      · exact Nat.succ_le_succ (ih cs ds)
      · exact max_le (Nat.le_succ_of_le (ih (c :: cs) ds)) (ih cs (d :: ds))

theorem ratioScore_le_100 (a b : List Char) : ratioScore a b ≤ 100 := by
  unfold ratioScore
  split
  · exact le_refl 100
  · rename_i hs
    have h1 : lcs a b ≤ a.length := lcsF_le_left _ a b
    have h2 : lcs a b ≤ b.length := lcsF_le_right _ a b
    have hpos : 0 < a.length + b.length := Nat.pos_of_ne_zero hs
    rw [Nat.div_le_iff_le_mul_add_pred (by omega)]
    omega

theorem tokenSetScore_le_100 (a b : List Char) : tokenSetScore a b ≤ 100 := by
  simp only [tokenSetScore]
  exact max_le (ratioScore_le_100 _ _) (max_le (ratioScore_le_100 _ _) (ratioScore_le_100 _ _))

/-! ## Membership through scoring, sorting, truncation -/

theorem mem_scoreAllGo (q : List Char) :
    ∀ (choices : List (List Char)) (i : Nat) (z : Scored),
      z ∈ scoreAllGo q choices i → z.score ≤ 100 ∧ z.choice ∈ choices ∧ i ≤ z.idx := by
  intro choices
  induction choices with
  | nil => intro i z h; simp [scoreAllGo] at h
  | cons c rest ih =>
    intro i z h
    simp only [scoreAllGo, List.mem_cons] at h
    rcases h with h | h
    · subst h
      exact ⟨tokenSetScore_le_100 _ _, List.mem_cons_self _ _, le_refl _⟩
    · obtain ⟨h1, h2, h3⟩ := ih (i + 1) z h
      exact ⟨h1, List.mem_cons_of_mem _ h2, by omega⟩

theorem mem_insertDesc (x z : Scored) :
    ∀ l : List Scored, z ∈ insertDesc x l ↔ z = x ∨ z ∈ l := by
  intro l
  induction l with
  | nil => simp [insertDesc]
  | cons y rest ih =>
    simp only [insertDesc]
    split
    · simp [List.mem_cons]
    · simp only [List.mem_cons, ih]
      tauto

theorem mem_sortDesc (z : Scored) : ∀ l : List Scored, z ∈ sortDesc l ↔ z ∈ l := by
  intro l
  induction l with
  | nil => simp [sortDesc]
  | cons x rest ih => simp [sortDesc, mem_insertDesc, ih]

theorem mem_extract (q : List Char) (choices : List (List Char)) (n : Nat) (z : Scored)
    (h : z ∈ extract q choices n) : z.score ≤ 100 ∧ z.choice ∈ choices := by
  have h1 : z ∈ sortDesc (scoreAll q choices) := List.mem_of_mem_take h
  have h2 : z ∈ scoreAll q choices := (mem_sortDesc z _).mp h1
  obtain ⟨ha, hb, _⟩ := mem_scoreAllGo q choices 0 z h2
  exact ⟨ha, hb⟩

/-! ## C9: configuration validation -/

/-- C9 (corrected): the matching core performs no validation at all; an
out-of-range threshold is used as-is (not clamped), so with `threshold > 100`
every description row is still processed and yields an empty match list —
which distinguishes "use as-is" both from rejecting and from clamping. -/
theorem runMatching_no_validation (rows : List (Option (List Char)))
    (descs : List (List Char)) (t n : Nat) (ht : 100 < t) :
    (runMatching rows descs t n).length = descs.length ∧
      ∀ r ∈ runMatching rows descs t n, r = [] := by
  constructor
  · simp [runMatching]
  · intro r hr
    simp only [runMatching, List.mem_map] at hr
    obtain ⟨d, _, hd⟩ := hr
    subst hd
    have hfil : ∀ q, filteredRow rows q t n = [] := by
      intro q
      have : filteredScored rows q t n = [] := by
        simp only [filteredScored]
        apply List.filter_eq_nil_iff.mpr
        intro z hz
        have := (mem_extract q (cleanedBrands rows) n z hz).1
        simp only [decide_eq_true_eq]
        omega
      simp [filteredRow, this]
    simp [matchRow, hfil]

/-- C9 witness: with threshold 150 (outside `[0,100]`) the single description
row is processed normally and produces an empty result — no validation error
is signalled. -/
theorem runMatching_no_validation_witness :
    (100 < 150) ∧
      ((runMatching [some ("x".toList)] ["x".toList] 150 5).length = 1 ∧
        ∀ r ∈ runMatching [some ("x".toList)] ["x".toList] 150 5, r = []) :=
  ⟨by decide, runMatching_no_validation [some ("x".toList)] ["x".toList] 150 5 (by decide)⟩

/-- C9 counterexample: at the invalid threshold 150 the core does not signal
any validation error before processing rows — it processes the row and
returns an ordinary (empty) result. -/
theorem runMatching_invalid_threshold_processes :
    runMatching [some ("x".toList)] ["x".toList] 150 5 = [[]] := by decide

/-! ## C7: threshold monotonicity -/

theorem filter_length_mono {α : Type} (p q : α → Bool) (h : ∀ a, p a = true → q a = true) :
    ∀ l : List α, (l.filter p).length ≤ (l.filter q).length := by
  intro l
  induction l with
  | nil => simp
  | cons x rest ih =>
    simp only [List.filter_cons]
    by_cases hp : p x = true
    · rw [if_pos hp, if_pos (h x hp)]
      simpa using ih
    · rw [if_neg hp]
      by_cases hq : q x = true
      · rw [if_pos hq]
        exact Nat.le_succ_of_le ih
      · rw [if_neg hq]
        exact ih

/-- C7 (confirmed): for a fixed query, vocabulary and topN, the threshold
filter at a lower threshold keeps at least as many candidates as at a higher
one. -/
theorem threshold_monotone (rows : List (Option (List Char))) (q : List Char)
    (n t1 t2 : Nat) (h : t1 < t2) :
    (filteredScored rows q t2 n).length ≤ (filteredScored rows q t1 n).length := by
  apply filter_length_mono
  intro z hz
  simp only [decide_eq_true_eq] at *
  omega

/-- C7 witness at a concrete query, vocabulary and threshold pair. -/
theorem threshold_monotone_witness :
    (50 < 80) ∧
      (filteredScored [some ("x".toList)] ("x".toList) 80 5).length ≤
        (filteredScored [some ("x".toList)] ("x".toList) 50 5).length :=
  ⟨by decide, threshold_monotone [some ("x".toList)] ("x".toList) 5 50 80 (by decide)⟩

/-! ## C1: duplicate normalized brands -/

/-- C1 counterexample: `"Acme Inc"` and `"Acme Ltd"` both normalize to
`"acme"`, and the vocabulary lookup returns the LATER raw brand, not the
earlier one the claim requires. -/
theorem originalFor_dup_counterexample :
    originalFor [some ("Acme Inc".toList), some ("Acme Ltd".toList)] ("acme".toList) =
        some ("Acme Ltd".toList) ∧
      ("Acme Ltd".toList : List Char) ≠ "Acme Inc".toList := by
  constructor
  · decide
  · decide

/-- C1 (corrected): `dict(zip(cleaned, originals))` is last-match-wins: the
lookup of a normalized string returns the raw brand of the LAST vocabulary
entry normalizing to it. -/
theorem originalFor_last_wins (rows : List (Option (List Char))) (n x : List Char)
    (pre post : List (List Char)) (hw : workBrands rows = pre ++ x :: post)
    (hx : clean_text x = n) (hpost : ∀ y ∈ post, clean_text y ≠ n) :
    originalFor rows n = some x := by
  simp only [originalFor, brandPairs, hw]
  rw [List.map_append, List.map_cons, List.reverse_append, List.reverse_cons,
    List.append_assoc]
  rw [List.find?_append]
  have hnone : ((post.map fun b => (clean_text b, b)).reverse.find?
      fun p => decide (p.1 = n)) = none := by
    apply List.find?_eq_none.mpr
    intro p hp
    simp only [List.mem_reverse, List.mem_map] at hp
    obtain ⟨y, hy, hyp⟩ := hp
    subst hyp
    simp [hpost y hy]
  rw [hnone]
  simp [hx]

/-- C1 witness: three brands where the middle one normalizes to the looked-up
string and the later one does not. -/
theorem originalFor_last_wins_witness :
    workBrands [some ("Acme Inc".toList), some ("Acme Ltd".toList), some ("Zeta".toList)] =
        ["Acme Inc".toList] ++ "Acme Ltd".toList :: ["Zeta".toList] ∧
      clean_text ("Acme Ltd".toList) = "acme".toList ∧
      originalFor [some ("Acme Inc".toList), some ("Acme Ltd".toList), some ("Zeta".toList)]
          ("acme".toList) = some ("Acme Ltd".toList) :=
  ⟨by decide, by decide,
    originalFor_last_wins _ ("acme".toList) ("Acme Ltd".toList)
      ["Acme Inc".toList] ["Zeta".toList] (by decide) (by decide)
      (by intro y hy; fin_cases hy; decide)⟩

/-! ## C8: dropped brand rows -/

/-- C8 counterexample: an empty-string brand row is NOT dropped — `dropna`
removes only null cells — so it produces a vocabulary entry (the empty
normalized string). -/
theorem emptyBrand_not_dropped :
    workBrands [some ([] : List Char)] = [([] : List Char)] ∧
      cleanedBrands [some ([] : List Char)] = [([] : List Char)] := by
  constructor
  · decide
  · decide

/-- C8 (corrected): vocabulary construction drops exactly the null rows —
every vocabulary entry is produced from some non-null raw brand text (which
may be the empty string). -/
theorem cleanedBrands_from_nonnull (rows : List (Option (List Char))) (n : List Char)
    (h : n ∈ cleanedBrands rows) : ∃ b, some b ∈ rows ∧ n = clean_text b := by
  simp only [cleanedBrands, workBrands, List.mem_map, List.mem_filterMap, id] at h
  obtain ⟨b, ⟨o, ho, hob⟩, hb⟩ := h
  subst hob
  exact ⟨b, ho, hb.symm⟩

/-- C8 witness: the sole vocabulary entry of a one-brand input comes from that
non-null brand. -/
theorem cleanedBrands_from_nonnull_witness :
    ("acme".toList ∈ cleanedBrands [none, some ("Acme Inc".toList)]) ∧
      ∃ b, some b ∈ [none, some ("Acme Inc".toList)] ∧ "acme".toList = clean_text b :=
  ⟨by decide, cleanedBrands_from_nonnull [none, some ("Acme Inc".toList)] ("acme".toList)
    (by decide)⟩

/-! ## C6: shape of the ranked, filtered candidate list -/

/-- `a` may legitimately precede `b` in the ranked candidate list: either a
strictly higher score, or an equal score and an earlier vocabulary position
(the stable tie-break). -/
def RankBefore (a b : Scored) : Prop :=
  b.score < a.score ∨ (a.score = b.score ∧ a.idx < b.idx)

theorem pairwise_insertDesc (x : Scored) :
    ∀ l : List Scored, l.Pairwise RankBefore → (∀ z ∈ l, x.idx < z.idx) →
      (insertDesc x l).Pairwise RankBefore := by
  intro l
  induction l with
  | nil => intro _ _; simp [insertDesc]
  | cons y rest ih =>
    intro hl hx
    rw [List.pairwise_cons] at hl
    obtain ⟨hy, hrest⟩ := hl
    simp only [insertDesc]
    split
    · rename_i hle
      rw [List.pairwise_cons]
      constructor
      · intro z hz
        rcases List.mem_cons.mp hz with hz | hz
        · have h1 : z.score ≤ x.score := by rw [hz]; exact hle
          have h2 : x.idx < z.idx := hx z (by rw [hz]; exact List.mem_cons_self y rest)
          simp only [RankBefore]
          omega
        · have h3 := hy z hz
          have h2 : x.idx < z.idx := hx z (List.mem_cons_of_mem _ hz)
          simp only [RankBefore] at h3 ⊢
          omega
      · exact List.pairwise_cons.mpr ⟨hy, hrest⟩
    · rename_i hgt
      rw [List.pairwise_cons]
      constructor
      · intro z hz
        rcases (mem_insertDesc x z rest).mp hz with hz | hz
        · simp only [RankBefore]
          rw [hz]
          omega
        · exact hy z hz
      · exact ih hrest (fun z hz => hx z (List.mem_cons_of_mem _ hz))

theorem pairwise_sortDesc :
    ∀ l : List Scored, l.Pairwise (fun a b => a.idx < b.idx) →
      (sortDesc l).Pairwise RankBefore := by
  intro l
  induction l with
  | nil => intro _; simp [sortDesc]
  | cons x rest ih =>
    intro hl
    rw [List.pairwise_cons] at hl
    obtain ⟨hx, hrest⟩ := hl
    simp only [sortDesc]
    exact pairwise_insertDesc x (sortDesc rest) (ih hrest)
      (fun z hz => hx z ((mem_sortDesc z rest).mp hz))

theorem pairwise_idx_scoreAllGo (q : List Char) :
    ∀ (choices : List (List Char)) (i : Nat),
      (scoreAllGo q choices i).Pairwise (fun a b => a.idx < b.idx) := by
  intro choices
  induction choices with
  | nil => intro i; simp [scoreAllGo]
  | cons c rest ih =>
    intro i
    simp only [scoreAllGo]
    rw [List.pairwise_cons]
    refine ⟨fun z hz => ?_, ih (i + 1)⟩
    have := (mem_scoreAllGo q rest (i + 1) z hz).2.2
    simpa using this

theorem pairwise_extract (q : List Char) (choices : List (List Char)) (n : Nat) :
    (extract q choices n).Pairwise RankBefore := by
  have h1 : (sortDesc (scoreAll q choices)).Pairwise RankBefore :=
    pairwise_sortDesc _ (pairwise_idx_scoreAllGo q choices 0)
  exact h1.sublist (List.take_sublist n _)

/-- C6 (confirmed): the threshold-filtered candidate list has at most `topN`
entries, is sorted by non-increasing score with ties in stable vocabulary
order, every score lies in `[threshold, 100]`, and the returned
`(original, score)` row is exactly its image under the original-brand
lookup. -/
theorem filtered_shape (rows : List (Option (List Char))) (q : List Char)
    (t n : Nat) (ht : t ≤ 100) (hn : 1 ≤ n) :
    (filteredScored rows q t n).length ≤ n ∧
      (filteredScored rows q t n).Pairwise RankBefore ∧
      (∀ z ∈ filteredScored rows q t n, t ≤ z.score ∧ z.score ≤ 100) ∧
      filteredRow rows q t n = (filteredScored rows q t n).map
        (fun r => ((originalFor rows r.choice).getD r.choice, r.score)) := by
  refine ⟨?_, ?_, ?_, rfl⟩
  · calc (filteredScored rows q t n).length
        ≤ (extractScored rows q n).length := List.length_filter_le _ _
      _ ≤ n := by
          simp only [extractScored, extract]
          exact List.length_take_le n _
  · exact (pairwise_extract q (cleanedBrands rows) n).sublist (List.filter_sublist _)
  · intro z hz
    simp only [filteredScored, List.mem_filter, decide_eq_true_eq] at hz
    exact ⟨hz.2, (mem_extract q (cleanedBrands rows) n z hz.1).1⟩

/-- C6 witness at a concrete query, vocabulary, threshold and topN. -/
theorem filtered_shape_witness :
    ((75 : Nat) ≤ 100) ∧ ((1 : Nat) ≤ 5) ∧
      ((filteredScored [some ("x".toList)] ("x".toList) 75 5).length ≤ 5 ∧
        (filteredScored [some ("x".toList)] ("x".toList) 75 5).Pairwise RankBefore ∧
        (∀ z ∈ filteredScored [some ("x".toList)] ("x".toList) 75 5,
          75 ≤ z.score ∧ z.score ≤ 100) ∧
        filteredRow [some ("x".toList)] ("x".toList) 75 5 =
          (filteredScored [some ("x".toList)] ("x".toList) 75 5).map
            (fun r => ((originalFor [some ("x".toList)] r.choice).getD r.choice, r.score))) :=
  ⟨by decide, by decide,
    filtered_shape [some ("x".toList)] ("x".toList) 75 5 (by decide) (by decide)⟩

/-! ## C10: truncation before threshold filtering -/

theorem perm_insertDesc (x : Scored) :
    ∀ l : List Scored, List.Perm (insertDesc x l) (x :: l) := by
  intro l
  induction l with
  | nil => simp [insertDesc]
  | cons y rest ih =>
    simp only [insertDesc]
    split
    · exact List.Perm.refl _
    · exact List.Perm.trans (ih.cons y) (List.Perm.swap x y rest)

theorem perm_sortDesc : ∀ l : List Scored, List.Perm (sortDesc l) l := by
  intro l
  induction l with
  | nil => simp [sortDesc]
  | cons x rest ih =>
    exact List.Perm.trans (perm_insertDesc x (sortDesc rest)) (ih.cons x)

theorem count_higher_lt_of_mem_take (s : Scored) :
    ∀ (l : List Scored) (n : Nat), l.Pairwise RankBefore → s ∈ l.take n →
      l.countP (fun z => s.score < z.score) < n := by
  intro l
  induction l with
  | nil => intro n _ hs; simp at hs
  | cons x rest ih =>
    intro n hl hs
    match n with
    | 0 => simp at hs
    | m + 1 =>
      rw [List.pairwise_cons] at hl
      obtain ⟨hx, hrest⟩ := hl
      rw [List.take_succ_cons, List.mem_cons] at hs
      rw [List.countP_cons]
      rcases hs with hs | hs
      · subst hs
        have h0 : rest.countP (fun z => s.score < z.score) = 0 := by
          apply List.countP_eq_zero.mpr
          intro z hz
          have := hx z hz
          simp only [decide_eq_true_eq]
          rcases this with h | ⟨h, _⟩ <;> omega
        simp [h0]
      · have := ih m hrest hs
        have hle : (if decide (s.score < x.score) = true then 1 else 0) ≤ 1 := by
          split <;> omega
        omega

/-- C10 (corrected): the `topN` truncation happens before the threshold
filter — the filter selects only from the `topN`-ranked prefix, the result
never exceeds `topN` entries (at any threshold, including 0), and a
vocabulary candidate is absent from both the extracted prefix and the
filtered result whenever more than `topN` entries score STRICTLY higher. -/
theorem truncation_before_filter (rows : List (Option (List Char))) (q : List Char)
    (t n : Nat) (s : Scored) (hs : t ≤ s.score)
    (hcnt : n < (scoreAll q (cleanedBrands rows)).countP (fun z => s.score < z.score)) :
    (extractScored rows q n).length ≤ n ∧
      filteredScored rows q t n = (extractScored rows q n).filter (fun r => t ≤ r.score) ∧
      s ∉ extractScored rows q n ∧ s ∉ filteredScored rows q t n := by
  have hsort : (sortDesc (scoreAll q (cleanedBrands rows))).Pairwise RankBefore :=
    pairwise_sortDesc _ (pairwise_idx_scoreAllGo q (cleanedBrands rows) 0)
  have hcnt' : n < (sortDesc (scoreAll q (cleanedBrands rows))).countP
      (fun z => s.score < z.score) := by
    rwa [(perm_sortDesc (scoreAll q (cleanedBrands rows))).countP_eq]
  have habs : s ∉ extractScored rows q n := by
    intro hmem
    have := count_higher_lt_of_mem_take s (sortDesc (scoreAll q (cleanedBrands rows)))
      n hsort hmem
    omega
  refine ⟨?_, rfl, habs, ?_⟩
  · simp only [extractScored, extract]
    exact List.length_take_le n _
  · intro hmem
    exact habs (List.mem_of_mem_filter hmem)

/-- C10 witness: with three identically scoring vocabulary entries and
`topN = 2`, a candidate with more than 2 strictly higher scorers (here a
hypothetical score-10 candidate) is absent from prefix and filtered result. -/
theorem truncation_before_filter_witness :
    ((5 : Nat) ≤ (⟨"q".toList, 5, 7⟩ : Scored).score) ∧
      (2 < (scoreAll ("x".toList)
        (cleanedBrands [some ("x".toList), some ("x".toList), some ("x".toList)])).countP
          (fun z => (⟨"q".toList, 5, 7⟩ : Scored).score < z.score)) ∧
      ((extractScored [some ("x".toList), some ("x".toList), some ("x".toList)]
          ("x".toList) 2).length ≤ 2 ∧
        filteredScored [some ("x".toList), some ("x".toList), some ("x".toList)]
            ("x".toList) 5 2 =
          (extractScored [some ("x".toList), some ("x".toList), some ("x".toList)]
            ("x".toList) 2).filter (fun r => 5 ≤ r.score) ∧
        (⟨"q".toList, 5, 7⟩ : Scored) ∉ extractScored
          [some ("x".toList), some ("x".toList), some ("x".toList)] ("x".toList) 2 ∧
        (⟨"q".toList, 5, 7⟩ : Scored) ∉ filteredScored
          [some ("x".toList), some ("x".toList), some ("x".toList)] ("x".toList) 5 2) :=
  ⟨by decide, by decide,
    truncation_before_filter [some ("x".toList), some ("x".toList), some ("x".toList)]
      ("x".toList) 5 2 ⟨"q".toList, 5, 7⟩ (by decide) (by decide)⟩

/-- C10 counterexample: the claim's "absent whenever more than topN entries
score at least as high" is false on ties — the first of three identical
100-scoring entries has three entries scoring at least as high as it (more
than `topN = 2`) yet IS in the filtered result. -/
theorem tie_candidate_present :
    (2 < (scoreAll ("x".toList)
      (cleanedBrands [some ("x".toList), some ("x".toList), some ("x".toList)])).countP
        (fun z => (⟨"x".toList, 100, 0⟩ : Scored).score ≤ z.score)) ∧
      (⟨"x".toList, 100, 0⟩ : Scored) ∈ filteredScored
        [some ("x".toList), some ("x".toList), some ("x".toList)] ("x".toList) 0 2 := by
  constructor
  · decide
  · decide

/-! ## C5: the `" by "` heuristic of the query builder -/

theorem leadsWith_iff : ∀ pat l : List Char, leadsWith pat l = true ↔ ∃ t, l = pat ++ t := by
  intro pat
  induction pat with
  | nil => intro l; simp [leadsWith]
  | cons p ps ih =>
    intro l
    match l with
    | [] =>
      simp [leadsWith]
    | c :: cs =>
      simp only [leadsWith, Bool.and_eq_true, decide_eq_true_eq, ih, List.cons_append]
      constructor
      · rintro ⟨rfl, t, rfl⟩
        exact ⟨t, rfl⟩
      · rintro ⟨t, h⟩
        injection h with h1 h2
        exact ⟨h1.symm, t, h2⟩

theorem containsPat_iff (pat : List Char) :
    ∀ l : List Char, containsPat pat l = true ↔ ∃ x y, l = x ++ (pat ++ y) := by
  intro l
  induction l with
  | nil =>
    simp only [containsPat, leadsWith_iff]
    constructor
    · rintro ⟨t, ht⟩
      exact ⟨[], t, by simpa using ht⟩
    · rintro ⟨x, y, h⟩
      rcases List.append_eq_nil.mp h.symm with ⟨hx, hpy⟩
      exact ⟨y, by simp [hpy]⟩
  | cons c rest ih =>
    simp only [containsPat, Bool.or_eq_true, leadsWith_iff, ih]
    constructor
    · rintro (⟨t, ht⟩ | ⟨x, y, hxy⟩)
      · exact ⟨[], t, by simpa using ht⟩
      · exact ⟨c :: x, y, by simp [hxy]⟩
    · rintro ⟨x, y, h⟩
      match x with
      | [] =>
        exact Or.inl ⟨y, by simpa using h⟩
      | a :: x' =>
        rw [List.cons_append] at h
        injection h with h1 h2
        exact Or.inr ⟨x', y, h2⟩

theorem splitFirst_of_leadsWith (pat l : List Char) (h : leadsWith pat l = true) :
    splitFirst pat l = some (l.drop pat.length) := by
  match l with
  | [] => simp [splitFirst, h]
  | c :: cs => simp [splitFirst, h]

theorem splitFirst_first (pat : List Char) :
    ∀ pre l suf : List Char, l = pre ++ (pat ++ suf) →
      (∀ pre' suf', l = pre' ++ (pat ++ suf') → pre.length ≤ pre'.length) →
      splitFirst pat l = some suf := by
  intro pre
  induction pre with
  | nil =>
    intro l suf hl _
    simp only [List.nil_append] at hl
    subst hl
    rw [splitFirst_of_leadsWith pat _ ((leadsWith_iff pat _).mpr ⟨suf, rfl⟩)]
    rw [List.drop_left]
  | cons a pre' ih =>
    intro l suf hl hmin
    subst hl
    have hlead : leadsWith pat (a :: (pre' ++ (pat ++ suf))) = false := by
      rcases hh : leadsWith pat (a :: (pre' ++ (pat ++ suf))) with _ | _
      · rfl
      · obtain ⟨t, ht⟩ := (leadsWith_iff pat _).mp hh
        have := hmin [] t (by simp only [List.nil_append]; exact_mod_cast ht)
        simp at this
    show splitFirst pat (a :: (pre' ++ (pat ++ suf))) = some suf
    simp only [splitFirst, hlead]
    rw [if_neg (by simp)]
    exact ih (pre' ++ (pat ++ suf)) suf rfl (fun pre'' suf'' h'' => by
      have := hmin (a :: pre'') suf'' (by simp [h''])
      simpa using this)

/-- C5 (confirmed): if the lower-cased description decomposes around a FIRST
occurrence of `" by "`, the query is `clean_text` of the suffix with the
heuristic flag set; if no such occurrence exists the query is `clean_text` of
the whole description with the flag clear. -/
theorem buildQuery_spec (desc pre suf : List Char) :
    (pyLower desc = pre ++ (byPat ++ suf) →
      (∀ pre' suf', pyLower desc = pre' ++ (byPat ++ suf') → pre.length ≤ pre'.length) →
      buildQuery desc = (clean_text suf, true)) ∧
    ((∀ pre' suf', pyLower desc ≠ pre' ++ (byPat ++ suf')) →
      buildQuery desc = (clean_text desc, false)) := by
  constructor
  · intro hl hmin
    have hc : containsPat byPat (pyLower desc) = true :=
      (containsPat_iff byPat _).mpr ⟨pre, suf, hl⟩
    have hs : splitFirst byPat (pyLower desc) = some suf :=
      splitFirst_first byPat pre _ suf hl hmin
    simp [buildQuery, hc, hs]
  · intro hn
    have hc : containsPat byPat (pyLower desc) = false := by
      rcases h : containsPat byPat (pyLower desc) with _ | _
      · rfl
      · obtain ⟨x, y, hxy⟩ := (containsPat_iff byPat _).mp h
        exact absurd hxy (hn x y)
    simp [buildQuery, hc]

/-- C5 witness: `"A by b by c"` splits at the FIRST `" by "`, leaving the
suffix `"b by c"` (not the later split `"c"`). -/
theorem buildQuery_spec_witness :
    pyLower ("A by b by c".toList) = "a".toList ++ (byPat ++ "b by c".toList) ∧
      buildQuery ("A by b by c".toList) = (clean_text ("b by c".toList), true) := by
  have hmin : ∀ pre' suf', pyLower ("A by b by c".toList) = pre' ++ (byPat ++ suf') →
      ("a".toList : List Char).length ≤ pre'.length := by
    intro pre' suf' h
    match pre' with
    | [] =>
      have he : pyLower ("A by b by c".toList) = "a by b by c".toList := by decide
      rw [he, List.nil_append] at h
      simp [byPat] at h
    | _ :: _ => simp
  exact ⟨by decide,
    (buildQuery_spec ("A by b by c".toList) ("a".toList) ("b by c".toList)).1
      (by decide) hmin⟩

/-! ## C2: the single fallback retry of the orchestrator -/

/-- C2 (confirmed): when the lower-cased description contains `" by "`, an
empty threshold-filtered list for the suffix query triggers exactly one retry
with the full-description query, whose filtered result is returned; a
non-empty first result is returned as-is; without `" by "` no retry happens. -/
theorem matchRow_retry (rows : List (Option (List Char))) (t n : Nat) (desc : List Char) :
    (containsPat byPat (pyLower desc) = true →
      (filteredRow rows
          (clean_text ((splitFirst byPat (pyLower desc)).getD (pyLower desc))) t n = [] →
        matchRow rows t n desc = filteredRow rows (clean_text desc) t n) ∧
      (filteredRow rows
          (clean_text ((splitFirst byPat (pyLower desc)).getD (pyLower desc))) t n ≠ [] →
        matchRow rows t n desc = filteredRow rows
          (clean_text ((splitFirst byPat (pyLower desc)).getD (pyLower desc))) t n)) ∧
    (containsPat byPat (pyLower desc) = false →
      matchRow rows t n desc = filteredRow rows (clean_text desc) t n) := by
  refine ⟨fun hc => ⟨fun hf => ?_, fun hf => ?_⟩, fun hc => ?_⟩
  · simp [matchRow, buildQuery, hc, hf]
  · simp [matchRow, buildQuery, hc, hf]
  · simp [matchRow, buildQuery, hc]

/-- C2 witness: for `"x by zzz"` against the single brand `"x"` at threshold
75, the suffix query `"zzz"` yields an empty filtered list, and the
orchestrator returns the retry result built from the full description. -/
theorem matchRow_retry_witness :
    containsPat byPat (pyLower ("x by zzz".toList)) = true ∧
      filteredRow [some ("x".toList)]
        (clean_text ((splitFirst byPat (pyLower ("x by zzz".toList))).getD
          (pyLower ("x by zzz".toList)))) 75 5 = [] ∧
      matchRow [some ("x".toList)] 75 5 ("x by zzz".toList) =
        filteredRow [some ("x".toList)] (clean_text ("x by zzz".toList)) 75 5 :=
  ⟨by decide, by decide,
    ((matchRow_retry [some ("x".toList)] 75 5 ("x by zzz".toList)).1 (by decide)).1
      (by decide)⟩

/-! ## C3: the three-way refinement contract -/

theorem classifyGo_eq (nd : List Char) :
    ∀ l : List (List Char),
      classifyGo nd l =
        (l.filter (fun b => decide (2 ≤ numToks (clean_text b)) &&
            containsPat (clean_text b) nd),
          l.any (fun b => numToks (clean_text b) = 1)) := by
  intro l
  induction l with
  | nil => simp [classifyGo]
  | cons b rest ih =>
    simp only [classifyGo, ih, List.filter_cons, List.any_cons]
    by_cases h1 : numToks (clean_text b) = 1
    · have h2 : decide (2 ≤ numToks (clean_text b)) = false := by
        rw [h1]; decide
      simp [h1, h2]
    · by_cases h2 : (decide (2 ≤ numToks (clean_text b)) &&
          containsPat (clean_text b) nd) = true
      · simp [h1, h2]
      · simp [h1, h2, Bool.of_not_eq_true h2]

/-- C3 (confirmed, spec-modelled): `classify` returns `NoMatch` on an empty
matched list; otherwise `ConfidentMatches` of exactly the brands whose
normalization has at least two whitespace tokens and occurs contiguously in
the normalized description (original order kept); else `AmbiguousSingleWord`
iff some brand normalized to exactly one token; else `NoMatch`. -/
theorem classify_spec (desc : List Char) (matched : List (List Char)) :
    (matched = [] → classify desc matched = Classification.NoMatch) ∧
    (matched ≠ [] →
      (matched.filter (fun b => decide (2 ≤ numToks (clean_text b)) &&
          containsPat (clean_text b) (clean_text desc)) ≠ [] →
        classify desc matched = Classification.ConfidentMatches
          (matched.filter (fun b => decide (2 ≤ numToks (clean_text b)) &&
            containsPat (clean_text b) (clean_text desc)))) ∧
      (matched.filter (fun b => decide (2 ≤ numToks (clean_text b)) &&
          containsPat (clean_text b) (clean_text desc)) = [] →
        (matched.any (fun b => numToks (clean_text b) = 1) = true →
          classify desc matched = Classification.AmbiguousSingleWord) ∧
        (matched.any (fun b => numToks (clean_text b) = 1) = false →
          classify desc matched = Classification.NoMatch))) := by
  refine ⟨fun he => ?_, fun hne => ⟨fun hf => ?_, fun hf => ⟨fun ha => ?_, fun ha => ?_⟩⟩⟩
  · simp [classify, he]
  · simp [classify, hne, classifyGo_eq, hf]
  · simp [classify, hne, classifyGo_eq, hf, ha]
  · simp [classify, hne, classifyGo_eq, hf, ha]

/-- C3 witness: the spec §8 example — `"Life"` is a skipped single-word
candidate, `"Life Brand"` is multi-word and contained, so the result is
`ConfidentMatches` of exactly the filtered accepted list. -/
theorem classify_spec_witness :
    (["Life".toList, "Life Brand".toList] : List (List Char)) ≠ [] ∧
      (["Life".toList, "Life Brand".toList].filter
        (fun b => decide (2 ≤ numToks (clean_text b)) &&
          containsPat (clean_text b)
            (clean_text ("Organic Juice by Life Brand Co".toList)))) =
        ["Life Brand".toList] ∧
      classify ("Organic Juice by Life Brand Co".toList)
          ["Life".toList, "Life Brand".toList] =
        Classification.ConfidentMatches
          (["Life".toList, "Life Brand".toList].filter
            (fun b => decide (2 ≤ numToks (clean_text b)) &&
              containsPat (clean_text b)
                (clean_text ("Organic Juice by Life Brand Co".toList)))) :=
  ⟨by decide, by decide,
    ((classify_spec ("Organic Juice by Life Brand Co".toList)
        ["Life".toList, "Life Brand".toList]).2 (by decide)).1 (by decide)⟩

/-! ## C4: idempotence of the normalizer — character-level lemmas -/

theorem toNat_ofNat_of_lt (n : Nat) (h : n < 0xD800) : (Char.ofNat n).toNat = n := by
  simp [Char.ofNat, Nat.isValidChar, h, Char.ofNatAux, Char.toNat, UInt32.toNat,
    BitVec.toNat_ofNatLt]

theorem lowerChar_idem (c : Char) : lowerChar (lowerChar c) = lowerChar c := by
  unfold lowerChar
  split
  · rename_i h
    have h2 : (Char.ofNat (c.toNat + 32)).toNat = c.toNat + 32 :=
      toNat_ofNat_of_lt _ (by omega)
    rw [if_neg (by omega)]
  · rfl

theorem word_not_space (c : Char) (h : isWordChar c = true) : isSpaceChar c = false := by
  rcases hs : isSpaceChar c with _ | _
  · rfl
  · exfalso
    simp only [isSpaceChar, Bool.or_eq_true, decide_eq_true_eq] at hs
    rcases hs with ((((rfl | rfl) | rfl) | rfl) | rfl) | rfl <;> revert h <;> decide

/-! Stage-by-stage character provenance -/

theorem mem_removeParensGo (z : Char) :
    ∀ (l : List Char) (st : Option (List Char)), z ∈ removeParensGo st l →
      (∃ buf, st = some buf ∧ z ∈ buf) ∨ z ∈ l := by
  intro l
  induction l with
  | nil =>
    intro st hz
    match st with
    | none => simp [removeParensGo] at hz
    | some buf =>
      simp only [removeParensGo, List.mem_reverse] at hz
      exact Or.inl ⟨buf, rfl, hz⟩
  | cons c rest ih =>
    intro st hz
    match st with
    | none =>
      simp only [removeParensGo] at hz
      split at hz
      · rcases ih (some [c]) hz with ⟨buf, hb, hzb⟩ | hzr
        · injection hb with hb
          subst hb
          simp at hzb
          subst hzb
          exact Or.inr (List.mem_cons_self _ _)
        · exact Or.inr (List.mem_cons_of_mem _ hzr)
      · rcases List.mem_cons.mp hz with rfl | hz'
        · exact Or.inr (List.mem_cons_self _ _)
        · rcases ih none hz' with ⟨_, h, _⟩ | hzr
          · exact absurd h (by simp)
          · exact Or.inr (List.mem_cons_of_mem _ hzr)
    | some buf =>
      simp only [removeParensGo] at hz
      split at hz
      · rcases ih none hz with ⟨_, h, _⟩ | hzr
        · exact absurd h (by simp)
        · exact Or.inr (List.mem_cons_of_mem _ hzr)
      · rcases ih (some (c :: buf)) hz with ⟨buf', hb, hzb⟩ | hzr
        · injection hb with hb
          subst hb
          rcases List.mem_cons.mp hzb with rfl | hzb'
          · exact Or.inr (List.mem_cons_self _ _)
          · exact Or.inl ⟨buf, rfl, hzb'⟩
        · exact Or.inr (List.mem_cons_of_mem _ hzr)

theorem mem_removeParens (z : Char) (l : List Char) (h : z ∈ removeParens l) : z ∈ l := by
  rcases mem_removeParensGo z l none h with ⟨_, hb, _⟩ | hz
  · exact absurd hb (by simp)
  · exact hz

theorem mem_removeApos (z : Char) (l : List Char) (h : z ∈ removeApos l) : z ∈ l :=
  List.mem_of_mem_filter h

theorem mem_flushRun (z : Char) (run : List Char) (h : z ∈ flushRun run) : z ∈ run := by
  unfold flushRun at h
  split at h
  · simp at h
  · exact h

theorem mem_removeLegalGo (z : Char) :
    ∀ (l cur : List Char), z ∈ removeLegalGo cur l → z ∈ cur ∨ z ∈ l := by
  intro l
  induction l with
  | nil =>
    intro cur hz
    simp only [removeLegalGo] at hz
    exact Or.inl (List.mem_reverse.mp (mem_flushRun z _ hz))
  | cons c rest ih =>
    intro cur hz
    simp only [removeLegalGo] at hz
    split at hz
    · rcases ih (c :: cur) hz with hc | hr
      · rcases List.mem_cons.mp hc with rfl | hc'
        · exact Or.inr (List.mem_cons_self _ _)
        · exact Or.inl hc'
      · exact Or.inr (List.mem_cons_of_mem _ hr)
    · rcases List.mem_append.mp hz with hf | hz'
      · exact Or.inl (List.mem_reverse.mp (mem_flushRun z _ hf))
      · rcases List.mem_cons.mp hz' with rfl | hz''
        · exact Or.inr (List.mem_cons_self _ _)
        · rcases ih [] hz'' with hc | hr
          · simp at hc
          · exact Or.inr (List.mem_cons_of_mem _ hr)

theorem mem_removeLegal (z : Char) (l : List Char) (h : z ∈ removeLegal l) : z ∈ l := by
  rcases mem_removeLegalGo z l [] h with hc | hz
  · simp at hc
  · exact hz

theorem mem_punctToSpace (z : Char) (l : List Char) (h : z ∈ punctToSpace l) :
    z = ' ' ∨ z ∈ l := by
  simp only [punctToSpace, List.mem_map] at h
  obtain ⟨c, hc, hcz⟩ := h
  by_cases hw : (isWordChar c || isSpaceChar c) = true
  · rw [if_pos hw] at hcz
    exact Or.inr (hcz ▸ hc)
  · rw [if_neg hw] at hcz
    exact Or.inl hcz.symm

theorem mem_collapseWsGo (z : Char) :
    ∀ (l : List Char) (flag : Bool), z ∈ collapseWsGo flag l → z = ' ' ∨ z ∈ l := by
  intro l
  induction l with
  | nil => intro flag hz; simp [collapseWsGo] at hz
  | cons c rest ih =>
    intro flag hz
    simp only [collapseWsGo] at hz
    split at hz
    · split at hz
      · rcases ih true hz with h | h
        · exact Or.inl h
        · exact Or.inr (List.mem_cons_of_mem _ h)
      · rcases List.mem_cons.mp hz with rfl | hz'
        · exact Or.inl rfl
        · rcases ih true hz' with h | h
          · exact Or.inl h
          · exact Or.inr (List.mem_cons_of_mem _ h)
    · rcases List.mem_cons.mp hz with rfl | hz'
      · exact Or.inr (List.mem_cons_self _ _)
      · rcases ih false hz' with h | h
        · exact Or.inl h
        · exact Or.inr (List.mem_cons_of_mem _ h)

theorem dropTrailingWs_sublist : ∀ l : List Char, (dropTrailingWs l).Sublist l := by
  intro l
  induction l with
  | nil => simp [dropTrailingWs]
  | cons c rest ih =>
    simp only [dropTrailingWs]
    split
    · exact List.nil_sublist _
    · exact ih.cons₂ c

theorem mem_stripWs (z : Char) (l : List Char) (h : z ∈ stripWs l) : z ∈ l := by
  unfold stripWs at h
  exact (List.dropWhile_sublist _).mem ((dropTrailingWs_sublist _).mem h)

/-- Every character of `clean_text l` is either a space or a character of
`pyLower l` (hence fixed by `lowerChar`). -/
theorem mem_clean_text (z : Char) (l : List Char) (h : z ∈ clean_text l) :
    z = ' ' ∨ z ∈ pyLower l := by
  unfold clean_text at h
  have h1 := mem_stripWs z _ h
  rcases mem_collapseWsGo z _ false h1 with h2 | h2
  · exact Or.inl h2
  rcases mem_punctToSpace z _ h2 with h3 | h3
  · exact Or.inl h3
  exact Or.inr (mem_removeParens z _ (mem_removeApos z _ (mem_removeLegal z _ h3)))

theorem lowerChar_fixed_clean_text (z : Char) (l : List Char) (h : z ∈ clean_text l) :
    lowerChar z = z := by
  rcases mem_clean_text z l h with rfl | h2
  · decide
  · simp only [pyLower, List.mem_map] at h2
    obtain ⟨c, _, hcz⟩ := h2
    rw [← hcz]
    exact lowerChar_idem c

/-! ## C4: maximal-run lemmas -/

theorem runsGo_append_word (p : Char → Bool) :
    ∀ (run : List Char) (cur l : List Char), (∀ c ∈ run, p c = true) →
      runsGo p cur (run ++ l) = runsGo p (run.reverse ++ cur) l := by
  intro run
  induction run with
  | nil => intro cur l _; simp
  | cons r run' ih =>
    intro cur l hrun
    have hr : p r = true := hrun r (List.mem_cons_self _ _)
    rw [List.cons_append]
    simp only [runsGo, hr, if_pos]
    rw [ih (r :: cur) l (fun c hc => hrun c (List.mem_cons_of_mem _ hc))]
    congr 1
    simp

theorem runsGo_all_word (p : Char → Bool) :
    ∀ (l cur : List Char), (∀ c ∈ l, p c = true) →
      runsGo p cur l = if cur.reverse ++ l = [] then [] else [cur.reverse ++ l] := by
  intro l
  induction l with
  | nil =>
    intro cur _
    simp only [runsGo, List.append_nil]
    rcases cur with _ | ⟨c, cs⟩
    · simp
    · simp
  | cons c rest ih =>
    intro cur hl
    have hc : p c = true := hl c (List.mem_cons_self _ _)
    simp only [runsGo, hc, if_pos]
    rw [ih (c :: cur) (fun d hd => hl d (List.mem_cons_of_mem _ hd))]
    have h1 : (c :: cur).reverse ++ rest = cur.reverse ++ (c :: rest) := by simp
    rw [h1]

theorem runsGo_tokens (p : Char → Bool) :
    ∀ (l cur : List Char), (∀ c ∈ cur, p c = true) →
      ∀ t ∈ runsGo p cur l, t ≠ [] ∧ ∀ c ∈ t, p c = true := by
  intro l
  induction l with
  | nil =>
    intro cur hcur t ht
    simp only [runsGo] at ht
    split at ht
    · simp at ht
    · rename_i hne
      rw [List.mem_singleton] at ht
      subst ht
      exact ⟨by simpa using hne, fun c hc => hcur c (List.mem_reverse.mp hc)⟩
  | cons c rest ih =>
    intro cur hcur t ht
    simp only [runsGo] at ht
    split at ht
    · rename_i hc
      exact ih (c :: cur) (by
        intro d hd
        rcases List.mem_cons.mp hd with rfl | hd'
        · exact hc
        · exact hcur d hd') t ht
    · rcases List.mem_append.mp ht with hf | hr
      · split at hf
        · simp at hf
        · rename_i hne
          rw [List.mem_singleton] at hf
          subst hf
          exact ⟨by simpa using hne, fun d hd => hcur d (List.mem_reverse.mp hd)⟩
      · exact ih [] (by simp) t hr

theorem runsGo_chars (p : Char → Bool) :
    ∀ (l cur t : List Char), t ∈ runsGo p cur l → ∀ z ∈ t, z ∈ cur ∨ z ∈ l := by
  intro l
  induction l with
  | nil =>
    intro cur t ht z hz
    simp only [runsGo] at ht
    split at ht
    · simp at ht
    · rw [List.mem_singleton] at ht
      subst ht
      exact Or.inl (List.mem_reverse.mp hz)
  | cons c rest ih =>
    intro cur t ht z hz
    simp only [runsGo] at ht
    split at ht
    · rcases ih (c :: cur) t ht z hz with hc | hr
      · rcases List.mem_cons.mp hc with rfl | hc'
        · exact Or.inr (List.mem_cons_self _ _)
        · exact Or.inl hc'
      · exact Or.inr (List.mem_cons_of_mem _ hr)
    · rcases List.mem_append.mp ht with hf | hr
      · split at hf
        · simp at hf
        · rw [List.mem_singleton] at hf
          subst hf
          exact Or.inl (List.mem_reverse.mp hz)
      · rcases ih [] t hr z hz with hc | hc
        · simp at hc
        · exact Or.inr (List.mem_cons_of_mem _ hc)

theorem runsBy_cons_not (p : Char → Bool) (c : Char) (l : List Char) (hc : p c = false) :
    runsBy p (c :: l) = runsBy p l := by
  simp [runsBy, runsGo, hc]

theorem runsBy_append_run (p : Char → Bool) (run : List Char) (c : Char) (tail : List Char)
    (hrun : ∀ d ∈ run, p d = true) (hc : p c = false) :
    runsBy p (run ++ c :: tail) =
      (if run = [] then [] else [run]) ++ runsBy p tail := by
  unfold runsBy
  rw [runsGo_append_word p run [] (c :: tail) hrun]
  rw [List.append_nil]
  simp only [runsGo, hc, Bool.false_eq_true, if_false]
  congr 1
  rcases run with _ | ⟨r, rs⟩
  · simp
  · simp

/-! ## C4: the legal-token removal acts on runs -/

theorem flushRun_nil : flushRun [] = [] := by
  unfold flushRun
  split <;> rfl

theorem flushRun_of_legal (run : List Char) (h : legalTokens.contains run = true) :
    flushRun run = [] := by
  unfold flushRun
  rw [if_pos h]

theorem flushRun_of_not_legal (run : List Char) (h : legalTokens.contains run = false) :
    flushRun run = run := by
  unfold flushRun
  rw [if_neg (by rw [h]; simp)]

theorem filter_singleton_pos {α : Type} (p : α → Bool) (x : α) (h : p x = true) :
    [x].filter p = [x] := by
  simp [List.filter, h]

theorem filter_singleton_neg {α : Type} (p : α → Bool) (x : α) (h : p x = false) :
    [x].filter p = [] := by
  simp [List.filter, h]

theorem runs_removeLegalGo :
    ∀ l cur : List Char, (∀ c ∈ cur, isWordChar c = true) →
      runsBy isWordChar (removeLegalGo cur l) =
        (runsGo isWordChar cur l).filter (fun r => !(legalTokens.contains r)) := by
  intro l
  induction l with
  | nil =>
    intro cur hcur
    simp only [removeLegalGo, runsGo]
    rcases cur with _ | ⟨a, cs⟩
    · rw [List.reverse_nil, flushRun_nil]
      simp [runsBy, runsGo]
    · rw [if_neg (by simp)]
      have hword : ∀ d ∈ (a :: cs).reverse, isWordChar d = true :=
        fun d hd => hcur d (List.mem_reverse.mp hd)
      rcases hcc : legalTokens.contains (a :: cs).reverse with _ | _
      · rw [flushRun_of_not_legal _ hcc]
        unfold runsBy
        rw [runsGo_all_word isWordChar _ [] hword]
        rw [List.reverse_nil, List.nil_append,
          if_neg (by simp : ¬((a :: cs).reverse = []))]
        rw [filter_singleton_pos _ _ (by rw [hcc]; rfl)]
      · rw [flushRun_of_legal _ hcc]
        rw [filter_singleton_neg _ _ (by rw [hcc]; rfl)]
        simp [runsBy, runsGo]
  | cons c rest ih =>
    intro cur hcur
    rcases hc : isWordChar c with _ | _
    · have hX := ih [] (by simp)
      simp only [removeLegalGo, runsGo, hc, Bool.false_eq_true, if_false]
      rw [List.filter_append]
      rcases cur with _ | ⟨a, cs⟩
      · rw [List.reverse_nil, flushRun_nil, List.nil_append]
        rw [runsBy_cons_not isWordChar c _ hc, hX]
        simp
      · rw [if_neg (by simp)]
        have hword : ∀ d ∈ (a :: cs).reverse, isWordChar d = true :=
          fun d hd => hcur d (List.mem_reverse.mp hd)
        rcases hcc : legalTokens.contains (a :: cs).reverse with _ | _
        · rw [flushRun_of_not_legal _ hcc]
          rw [runsBy_append_run isWordChar _ c _ hword hc]
          rw [if_neg (by simp), hX]
          rw [filter_singleton_pos _ _ (by rw [hcc]; rfl)]
        · rw [flushRun_of_legal _ hcc]
          rw [List.nil_append, runsBy_cons_not isWordChar c _ hc, hX]
          rw [filter_singleton_neg _ _ (by rw [hcc]; rfl)]
          rw [List.nil_append]
    · simp only [removeLegalGo, runsGo, hc, if_pos]
      exact ih (c :: cur) (by
        intro d hd
        rcases List.mem_cons.mp hd with rfl | hd'
        · exact hc
        · exact hcur d hd')

/-! ## C4: identity of legal-token removal on legal-free strings -/

theorem removeLegalGo_id :
    ∀ l cur : List Char, (∀ c ∈ cur, isWordChar c = true) →
      (∀ r ∈ runsGo isWordChar cur l, legalTokens.contains r = false) →
      removeLegalGo cur l = cur.reverse ++ l := by
  intro l
  induction l with
  | nil =>
    intro cur hcur hruns
    simp only [removeLegalGo, List.append_nil]
    rcases cur with _ | ⟨a, cs⟩
    · rfl
    · apply flushRun_of_not_legal
      apply hruns
      simp only [runsGo]
      rw [if_neg (by simp)]
      exact List.mem_singleton.mpr rfl
  | cons c rest ih =>
    intro cur hcur hruns
    rcases hc : isWordChar c with _ | _
    · simp only [removeLegalGo, hc, Bool.false_eq_true, if_false]
      simp only [runsGo, hc, Bool.false_eq_true, if_false] at hruns
      have hflush : flushRun cur.reverse = cur.reverse := by
        rcases cur with _ | ⟨a, cs⟩
        · rfl
        · apply flushRun_of_not_legal
          apply hruns
          rw [if_neg (by simp)]
          exact List.mem_append.mpr (Or.inl (List.mem_singleton.mpr rfl))
      rw [hflush, ih [] (by simp) (fun r hr => hruns r (List.mem_append.mpr (Or.inr hr)))]
      rw [List.reverse_nil, List.nil_append]
    · simp only [removeLegalGo, hc, if_pos]
      have hruns2 : ∀ r ∈ runsGo isWordChar (c :: cur) rest, legalTokens.contains r = false := by
        intro r hr
        apply hruns
        simp only [runsGo, hc, if_pos]
        exact hr
      rw [ih (c :: cur) (by
        intro d hd
        rcases List.mem_cons.mp hd with rfl | hd'
        · exact hc
        · exact hcur d hd') hruns2]
      simp

/-! ## C4: joining tokens back with single spaces -/

theorem joinToks_cons (x : List Char) (ts : List (List Char)) :
    joinToks (x :: ts) = if ts = [] then x else x ++ ' ' :: joinToks ts := by
  cases ts with
  | nil => simp [joinToks]
  | cons t ts' => simp [joinToks]

theorem joinToks_ne_nil (t : List Char) (ts : List (List Char)) (h : t ≠ []) :
    joinToks (t :: ts) ≠ [] := by
  rw [joinToks_cons]
  split
  · exact h
  · simp

/-- The synchronized scan: punctuation-to-space, whitespace collapse and
trailing-strip compute exactly the word runs joined by single spaces.  First
component: the scan state "inside a word run `cur`"; second: the state
"inside an already-emitted whitespace run". -/
theorem collapse_punct_runs : ∀ l : List Char,
    (∀ cur : List Char, cur ≠ [] → (∀ c ∈ cur, isWordChar c = true) →
      cur.reverse ++ dropTrailingWs (collapseWsGo false (punctToSpace l)) =
        joinToks (runsGo isWordChar cur l)) ∧
    dropTrailingWs (collapseWsGo true (punctToSpace l)) =
      joinToks (runsBy isWordChar l) := by
  intro l
  induction l with
  | nil =>
    constructor
    · intro cur hne _
      simp only [punctToSpace, List.map_nil, collapseWsGo, dropTrailingWs,
        List.append_nil, runsGo]
      rw [if_neg hne, joinToks_cons, if_pos rfl]
    · simp [punctToSpace, collapseWsGo, dropTrailingWs, runsBy, runsGo, joinToks]
  | cons c rest ih =>
    obtain ⟨ihS2, ihS4⟩ := ih
    have himg : ∃ c', punctToSpace (c :: rest) = c' :: punctToSpace rest ∧
        ((isWordChar c = true → c' = c) ∧
          (isWordChar c = false → isSpaceChar c' = true)) := by
      refine ⟨if isWordChar c || isSpaceChar c then c else ' ', by simp [punctToSpace], ?_, ?_⟩
      · intro hw
        rw [if_pos (by simp [hw])]
      · intro hw
        rcases hs : isSpaceChar c with _ | _
        · rw [if_neg (by simp [hw, hs])]
          decide
        · rw [if_pos (by simp [hs])]
          exact hs
    obtain ⟨c', himg, hword, hspace⟩ := himg
    constructor
    · -- state: inside the word run cur.reverse
      intro cur hne hw
      rcases hc : isWordChar c with _ | _
      · -- c is not a word character: the current run ends here
        have hsp' : isSpaceChar c' = true := hspace hc
        rw [himg]
        have hcol : collapseWsGo false (c' :: punctToSpace rest) =
            ' ' :: collapseWsGo true (punctToSpace rest) := by
          simp [collapseWsGo, hsp']
        rw [hcol]
        have hrg : runsGo isWordChar cur (c :: rest) =
            [cur.reverse] ++ runsGo isWordChar [] rest := by
          simp only [runsGo, hc, Bool.false_eq_true, if_false]
          rw [if_neg hne]
        rw [hrg]
        rcases hts : runsGo isWordChar [] rest with _ | ⟨t, ts'⟩
        · have hY : dropTrailingWs (collapseWsGo true (punctToSpace rest)) = [] := by
            rw [ihS4]
            unfold runsBy
            rw [hts]
            rfl
          simp only [dropTrailingWs, hY]
          rw [if_pos (by decide)]
          rw [List.append_nil, List.append_nil, joinToks_cons, if_pos rfl]
        · have htne : t ≠ [] :=
            (runsGo_tokens isWordChar rest [] (by simp) t (by rw [hts]; simp)).1
          have hJ : dropTrailingWs (collapseWsGo true (punctToSpace rest)) =
              joinToks (t :: ts') := by
            rw [ihS4]
            unfold runsBy
            rw [hts]
          have hJne : joinToks (t :: ts') ≠ [] := joinToks_ne_nil t ts' htne
          simp only [dropTrailingWs, hJ]
          rw [if_neg (by simp [hJne])]
          rw [List.singleton_append]
          have hjc : joinToks (cur.reverse :: t :: ts') =
              cur.reverse ++ ' ' :: joinToks (t :: ts') := by
            rw [joinToks_cons, if_neg (by simp)]
          rw [hjc]
      · -- c continues the run
        have hc' : c' = c := hword hc
        subst hc'
        have hsp : isSpaceChar c' = false := word_not_space c' hc
        rw [himg]
        have hcol : collapseWsGo false (c' :: punctToSpace rest) =
            c' :: collapseWsGo false (punctToSpace rest) := by
          simp [collapseWsGo, hsp]
        rw [hcol]
        have hdt : dropTrailingWs (c' :: collapseWsGo false (punctToSpace rest)) =
            c' :: dropTrailingWs (collapseWsGo false (punctToSpace rest)) := by
          simp [dropTrailingWs, hsp]
        rw [hdt]
        have hrg : runsGo isWordChar cur (c' :: rest) =
            runsGo isWordChar (c' :: cur) rest := by
          simp [runsGo, hc]
        rw [hrg]
        rw [← ihS2 (c' :: cur) (by simp) (by
          intro d hd
          rcases List.mem_cons.mp hd with rfl | hd'
          · exact hc
          · exact hw d hd')]
        simp
    · -- state: inside an emitted whitespace run
      rcases hc : isWordChar c with _ | _
      · have hsp' : isSpaceChar c' = true := hspace hc
        rw [himg]
        have hcol : collapseWsGo true (c' :: punctToSpace rest) =
            collapseWsGo true (punctToSpace rest) := by
          simp [collapseWsGo, hsp']
        rw [hcol, ihS4]
        unfold runsBy
        simp [runsGo, hc]
      · have hc' : c' = c := hword hc
        subst hc'
        have hsp : isSpaceChar c' = false := word_not_space c' hc
        rw [himg]
        have hcol : collapseWsGo true (c' :: punctToSpace rest) =
            c' :: collapseWsGo false (punctToSpace rest) := by
          simp [collapseWsGo, hsp]
        rw [hcol]
        have hdt : dropTrailingWs (c' :: collapseWsGo false (punctToSpace rest)) =
            c' :: dropTrailingWs (collapseWsGo false (punctToSpace rest)) := by
          simp [dropTrailingWs, hsp]
        rw [hdt]
        have hrg : runsBy isWordChar (c' :: rest) = runsGo isWordChar [c'] rest := by
          simp [runsBy, runsGo, hc]
        rw [hrg]
        rw [← ihS2 [c'] (by simp) (by
          intro d hd
          rcases List.mem_cons.mp hd with rfl | hd'
          · exact hc
          · simp at hd')]
        simp

theorem collapseWsGo_true_head : ∀ l : List Char, collapseWsGo true l = [] ∨
    ∃ d tl, collapseWsGo true l = d :: tl ∧ isSpaceChar d = false := by
  intro l
  induction l with
  | nil => exact Or.inl rfl
  | cons c rest ih =>
    rcases hs : isSpaceChar c with _ | _
    · exact Or.inr ⟨c, collapseWsGo false rest, by simp [collapseWsGo, hs], hs⟩
    · rw [show collapseWsGo true (c :: rest) = collapseWsGo true rest by
        simp [collapseWsGo, hs]]
      exact ih

/-- Stage 5 then stage 6 of `clean_text` compute the word runs joined by
single spaces. -/
theorem clean_last_stages (l : List Char) :
    stripWs (collapseWs (punctToSpace l)) = joinToks (runsBy isWordChar l) := by
  cases l with
  | nil => rfl
  | cons c rest =>
    obtain ⟨ihS2, ihS4⟩ := collapse_punct_runs rest
    have himg : ∃ c', punctToSpace (c :: rest) = c' :: punctToSpace rest ∧
        ((isWordChar c = true → c' = c) ∧
          (isWordChar c = false → isSpaceChar c' = true)) := by
      refine ⟨if isWordChar c || isSpaceChar c then c else ' ', by simp [punctToSpace], ?_, ?_⟩
      · intro hw
        rw [if_pos (by simp [hw])]
      · intro hw
        rcases hs : isSpaceChar c with _ | _
        · rw [if_neg (by simp [hw, hs])]
          decide
        · rw [if_pos (by simp [hs])]
          exact hs
    obtain ⟨c', himg, hword, hspace⟩ := himg
    rcases hc : isWordChar c with _ | _
    · -- leading non-word character: becomes whitespace and is stripped
      have hsp' : isSpaceChar c' = true := hspace hc
      unfold stripWs collapseWs
      rw [himg]
      rw [show collapseWsGo false (c' :: punctToSpace rest) =
          ' ' :: collapseWsGo true (punctToSpace rest) by simp [collapseWsGo, hsp']]
      rw [List.dropWhile_cons_of_pos (by decide)]
      have hrb : runsBy isWordChar (c :: rest) = runsBy isWordChar rest := by
        simp [runsBy, runsGo, hc]
      rw [hrb, ← ihS4]
      rcases collapseWsGo_true_head (punctToSpace rest) with hY | ⟨d, tl, hY, hd⟩
      · rw [hY]
        rfl
      · rw [hY, List.dropWhile_cons_of_neg (by simp [hd])]
    · -- leading word character
      have hc' : c' = c := hword hc
      rw [hc'] at himg
      have hsp : isSpaceChar c = false := word_not_space c hc
      unfold stripWs collapseWs
      rw [himg]
      rw [show collapseWsGo false (c :: punctToSpace rest) =
          c :: collapseWsGo false (punctToSpace rest) by simp [collapseWsGo, hsp]]
      rw [List.dropWhile_cons_of_neg (by simp [hsp])]
      rw [show dropTrailingWs (c :: collapseWsGo false (punctToSpace rest)) =
          c :: dropTrailingWs (collapseWsGo false (punctToSpace rest)) by
        simp [dropTrailingWs, hsp]]
      have hrb : runsBy isWordChar (c :: rest) = runsGo isWordChar [c] rest := by
        simp [runsBy, runsGo, hc]
      rw [hrb, ← ihS2 [c] (by simp) (by
        intro d hd
        rcases List.mem_cons.mp hd with rfl | hd'
        · exact hc
        · simp at hd')]
      simp

/-! ## C4: the normal form of `clean_text` and idempotence -/

/-- `clean_text` computes the non-legal word runs of the pre-processed string,
joined by single spaces. -/
theorem clean_text_eq (l : List Char) :
    clean_text l = joinToks ((runsBy isWordChar
        (removeApos (removeParens (pyLower l)))).filter
      (fun r => !(legalTokens.contains r))) := by
  unfold clean_text
  rw [clean_last_stages (removeLegal (removeApos (removeParens (pyLower l))))]
  unfold removeLegal
  rw [runs_removeLegalGo _ [] (by simp)]
  rfl

theorem mem_joinToks (z : Char) :
    ∀ ts : List (List Char), z ∈ joinToks ts → z = ' ' ∨ ∃ t ∈ ts, z ∈ t := by
  intro ts
  induction ts with
  | nil => intro h; simp [joinToks] at h
  | cons t ts' ih =>
    intro h
    rw [joinToks_cons] at h
    split at h
    · exact Or.inr ⟨t, List.mem_cons_self _ _, h⟩
    · rcases List.mem_append.mp h with h1 | h1
      · exact Or.inr ⟨t, List.mem_cons_self _ _, h1⟩
      · rcases List.mem_cons.mp h1 with rfl | h2
        · exact Or.inl rfl
        · rcases ih h2 with h3 | ⟨t', ht', hz⟩
          · exact Or.inl h3
          · exact Or.inr ⟨t', List.mem_cons_of_mem _ ht', hz⟩

/-- Re-splitting a join of nonempty all-word tokens returns the tokens. -/
theorem runsBy_joinToks :
    ∀ ts : List (List Char), (∀ t ∈ ts, t ≠ [] ∧ ∀ c ∈ t, isWordChar c = true) →
      runsBy isWordChar (joinToks ts) = ts := by
  intro ts
  induction ts with
  | nil => intro _; rfl
  | cons t ts' ih =>
    intro hts
    obtain ⟨htne, htw⟩ := hts t (List.mem_cons_self _ _)
    rw [joinToks_cons]
    rcases ts' with _ | ⟨t', ts''⟩
    · rw [if_pos rfl]
      unfold runsBy
      rw [runsGo_all_word isWordChar t [] htw]
      rw [List.reverse_nil, List.nil_append, if_neg htne]
    · rw [if_neg (by simp)]
      unfold runsBy
      rw [runsGo_append_word isWordChar t [] _ htw]
      rw [List.append_nil]
      have hsp : isWordChar ' ' = false := by decide
      simp only [runsGo, hsp, Bool.false_eq_true, if_false]
      rw [if_neg (by simp [htne])]
      rw [List.reverse_reverse]
      have := ih (fun u hu => hts u (List.mem_cons_of_mem _ hu))
      unfold runsBy at this
      rw [this]
      rfl

theorem map_id_of_fixed {α : Type} (f : α → α) :
    ∀ l : List α, (∀ c ∈ l, f c = c) → l.map f = l := by
  intro l
  induction l with
  | nil => intro _; rfl
  | cons c rest ih =>
    intro h
    rw [List.map_cons, h c (List.mem_cons_self _ _),
      ih (fun d hd => h d (List.mem_cons_of_mem _ hd))]

theorem removeParensGo_none_id :
    ∀ l : List Char, (∀ c ∈ l, c ≠ '(') → removeParensGo none l = l := by
  intro l
  induction l with
  | nil => intro _; rfl
  | cons c rest ih =>
    intro h
    simp only [removeParensGo]
    rw [if_neg (h c (List.mem_cons_self _ _))]
    rw [ih (fun d hd => h d (List.mem_cons_of_mem _ hd))]

theorem not_apos_of_word_or_space (c : Char) (h : isWordChar c = true ∨ c = ' ') :
    aposChars.contains c = false := by
  rcases hcc : aposChars.contains c with _ | _
  · rfl
  · exfalso
    have hm : c ∈ aposChars := by simpa using hcc
    simp only [aposChars, List.mem_cons, List.not_mem_nil, or_false] at hm
    rcases hm with rfl | rfl | rfl | rfl <;> rcases h with h | h <;> revert h <;> decide

theorem removeApos_id (l : List Char) (h : ∀ c ∈ l, aposChars.contains c = false) :
    removeApos l = l := by
  unfold removeApos
  apply List.filter_eq_self.mpr
  intro c hc
  rw [h c hc]
  rfl

/-- Characters of `clean_text` output are word characters or single spaces. -/
theorem clean_text_chars (z : Char) (l : List Char) (h : z ∈ clean_text l) :
    isWordChar z = true ∨ z = ' ' := by
  rw [clean_text_eq] at h
  rcases mem_joinToks z _ h with rfl | ⟨t, ht, hz⟩
  · exact Or.inr rfl
  · have ht' := List.mem_filter.mp ht
    have := (runsGo_tokens isWordChar _ [] (by simp) t ht'.1).2 z hz
    exact Or.inl this

/-- C4 (confirmed): the text normalizer is idempotent. -/
theorem clean_text_idem (l : List Char) : clean_text (clean_text l) = clean_text l := by
  have hM := clean_text_eq l
  have h1 : pyLower (clean_text l) = clean_text l :=
    map_id_of_fixed lowerChar _ (fun c hc => lowerChar_fixed_clean_text c l hc)
  have h2 : removeParens (clean_text l) = clean_text l := by
    apply removeParensGo_none_id
    intro c hc
    rcases clean_text_chars c l hc with hw | rfl
    · intro hparen
      subst hparen
      revert hw
      decide
    · decide
  have h3 : removeApos (clean_text l) = clean_text l :=
    removeApos_id _ (fun c hc => not_apos_of_word_or_space c (clean_text_chars c l hc))
  have htoks : ∀ t ∈ (runsBy isWordChar
      (removeApos (removeParens (pyLower l)))).filter
        (fun r => !(legalTokens.contains r)),
      t ≠ [] ∧ ∀ c ∈ t, isWordChar c = true := by
    intro t ht
    exact runsGo_tokens isWordChar _ [] (by simp) t (List.mem_filter.mp ht).1
  rw [clean_text_eq (clean_text l), h1, h2, h3, hM]
  rw [runsBy_joinToks _ htoks]
  rw [List.filter_eq_self.mpr (fun t ht => (List.mem_filter.mp ht).2)]

end BrandMatch
